import Mathlib

/-!
Shallow embedding of the EncryptBckDocs synchronizer (EncryptBckDocs.go,
current multi-folder version) and proofs about its reconciliation engine,
destination-folder resolution, file filters, watch-path configuration and
config serialization.

Go strings are modelled as `List Char`; Go `int` results that can be
negative (string indices) as `Int`.  The remote Drive store is modelled as
a list of file records, with the store semantics of the Drive API calls
(list/create/update) written out explicitly, as described in the design
document's Remote Store Client contract.
-/

namespace EncryptBckDocs

/-- Model of a `drive.File` record: the fields this program reads or writes
(`Id`, `Name`, `MimeType`, `Parents`) plus the trashed flag the queries
filter on. -/
structure DriveFile where
  id : List Char
  name : List Char
  mimeType : List Char := []
  parents : List (List Char) := []
  trashed : Bool := false
deriving DecidableEq, Repr

/-! ### Go string primitives -/

/-- Descending search used to model `strings.LastIndex`: the greatest
position `i ≤ n` at which `sub` starts in `s`, if any. -/
def lastIndexAuxN (s sub : List Char) : Nat → Option Nat
  | 0 => if sub.isPrefixOf s then some 0 else none
  | j + 1 => if sub.isPrefixOf (s.drop (j + 1)) then some (j + 1) else lastIndexAuxN s sub j

/-- Go `strings.LastIndex s sub`: index of the last occurrence of `sub` in
`s`, `-1` when there is none. -/
def goLastIndex (s sub : List Char) : Int :=
  match lastIndexAuxN s sub s.length with
  | some i => (i : Int)
  | none => -1

/-- Go `strings.Index s sub`: index of the first occurrence of `sub` in
`s`, `-1` when there is none. -/
def goIndex (s sub : List Char) : Int :=
  match (List.range (s.length + 1)).find? (fun i => sub.isPrefixOf (s.drop i)) with
  | some i => (i : Int)
  | none => -1

/-- Go slice expression `s[lo:hi]`: `none` models the run-time panic when
the bounds are out of range (`0 ≤ lo ≤ hi ≤ len s` is required). -/
def goSlice (s : List Char) (lo hi : Int) : Option (List Char) :=
  if 0 ≤ lo ∧ lo ≤ hi ∧ hi ≤ (s.length : Int) then
    some ((s.take hi.toNat).drop lo.toNat)
  else none

/-- Go `path/filepath.Base` on a Unix path: `"."` for the empty path, strip
trailing separators, `"/"` if only separators remain, otherwise everything
after the last separator. -/
def filepathBase (path : List Char) : List Char :=
  if path.isEmpty then (".".toList)
  else
    let p := (path.reverse.dropWhile (fun c => c == '/')).reverse
    if p.isEmpty then ("/".toList)
    else (p.reverse.takeWhile (fun c => !(c == '/'))).reverse

/-! ### Helper lemmas about the string primitives -/

theorem isPrefixOf_iff_exists (sub : List Char) :
    ∀ l : List Char, sub.isPrefixOf l = true ↔ ∃ u, l = sub ++ u := by
  induction sub with
  | nil =>
    intro l
    simp [List.isPrefixOf]
  | cons a as ih =>
    intro l
    cases l with
    | nil =>
      simp [List.isPrefixOf]
    | cons b bs =>
      simp only [List.isPrefixOf, Bool.and_eq_true, beq_iff_eq, ih bs, List.cons_append,
        List.cons.injEq]
      constructor
      · rintro ⟨h1, u, h2⟩
        exact ⟨u, h1.symm, h2⟩
      · rintro ⟨u, h1, h2⟩
        exact ⟨h1.symm, u, h2⟩

theorem lastIndexAuxN_some (s sub : List Char) :
    ∀ n i, lastIndexAuxN s sub n = some i →
      i ≤ n ∧ sub.isPrefixOf (s.drop i) = true := by
  intro n
  induction n with
  | zero =>
    intro i h
    simp only [lastIndexAuxN] at h
    by_cases hp : sub.isPrefixOf s = true
    · simp [hp] at h
      subst h
      exact ⟨Nat.le_refl 0, by simpa using hp⟩
    · simp [hp] at h
  | succ j ih =>
    intro i h
    simp only [lastIndexAuxN] at h
    by_cases hp : sub.isPrefixOf (s.drop (j + 1)) = true
    · simp [hp] at h
      subst h
      exact ⟨Nat.le_refl _, hp⟩
    · simp [hp] at h
      obtain ⟨h1, h2⟩ := ih i h
      exact ⟨Nat.le_succ_of_le h1, h2⟩

theorem lastIndexAuxN_complete (s sub : List Char) :
    ∀ n i, i ≤ n → sub.isPrefixOf (s.drop i) = true →
      ∃ r, lastIndexAuxN s sub n = some r ∧ i ≤ r := by
  intro n
  induction n with
  | zero =>
    intro i hle hp
    interval_cases i
    simp only [List.drop_zero] at hp
    exact ⟨0, by simp [lastIndexAuxN, hp], Nat.le_refl 0⟩
  | succ j ih =>
    intro i hle hp
    by_cases hq : sub.isPrefixOf (s.drop (j + 1)) = true
    · exact ⟨j + 1, by simp [lastIndexAuxN, hq], hle⟩
    · have hij : i ≤ j := by
        rcases Nat.lt_or_ge i (j + 1) with h | h
        · omega
        · exfalso
          have : i = j + 1 := by omega
          subst this
          exact hq hp
      obtain ⟨r, hr, hir⟩ := ih i hij hp
      exact ⟨r, by simp [lastIndexAuxN, hq, hr], hir⟩

/-- When `sub` occurs nowhere in `s`, Go `strings.LastIndex` is `-1`. -/
theorem goLastIndex_eq_neg_one (s sub : List Char)
    (h : ¬ ∃ t u, s = t ++ sub ++ u) : goLastIndex s sub = -1 := by
  unfold goLastIndex
  cases hfind : lastIndexAuxN s sub s.length with
  | none => rfl
  | some i =>
    exfalso
    obtain ⟨hle, hp⟩ := lastIndexAuxN_some s sub s.length i hfind
    rw [isPrefixOf_iff_exists] at hp
    obtain ⟨u, hu⟩ := hp
    exact h ⟨s.take i, u, by rw [List.append_assoc, ← hu, List.take_append_drop]⟩

/-- When `sub` is a (nonempty) suffix of `s = t ++ sub`, Go
`strings.LastIndex` finds exactly the position `t.length`. -/
theorem goLastIndex_suffix (t sub : List Char) (hsub : sub ≠ []) :
    goLastIndex (t ++ sub) sub = (t.length : Int) := by
  unfold goLastIndex
  have hdrop : (t ++ sub).drop t.length = sub := by
    simp
  have hp : sub.isPrefixOf ((t ++ sub).drop t.length) = true := by
    rw [hdrop, isPrefixOf_iff_exists]
    exact ⟨[], by simp⟩
  have hlen : t.length ≤ (t ++ sub).length := by
    simp
  obtain ⟨r, hr, hge⟩ := lastIndexAuxN_complete (t ++ sub) sub (t ++ sub).length t.length hlen hp
  obtain ⟨hrle, hrp⟩ := lastIndexAuxN_some (t ++ sub) sub (t ++ sub).length r hr
  rw [isPrefixOf_iff_exists] at hrp
  obtain ⟨u, hu⟩ := hrp
  have hdl : ((t ++ sub).drop r).length = (t ++ sub).length - r := by
    simp
  rw [hu] at hdl
  simp only [List.length_append] at hdl hrle hlen
  have hr_eq : r = t.length := by
    have hsublen : 0 < sub.length := List.length_pos.mpr hsub
    omega
  rw [hr, hr_eq]

/-- When `sub` occurs in `s`, Go `strings.Index` is not `-1`. -/
theorem goIndex_ne_neg_one (s sub : List Char)
    (h : ∃ t u, s = t ++ sub ++ u) : goIndex s sub ≠ -1 := by
  obtain ⟨t, u, hs⟩ := h
  unfold goIndex
  have hmem : t.length ∈ List.range (s.length + 1) := by
    rw [List.mem_range, hs]
    simp
    omega
  have hp : sub.isPrefixOf (s.drop t.length) = true := by
    rw [hs, List.append_assoc]
    have : ((t ++ (sub ++ u)).drop t.length) = sub ++ u := by simp
    rw [this, isPrefixOf_iff_exists]
    exact ⟨u, rfl⟩
  have hsome : ((List.range (s.length + 1)).find? (fun i => sub.isPrefixOf (s.drop i))).isSome := by
    rw [List.find?_isSome]
    exact ⟨t.length, hmem, hp⟩
  cases hfind : (List.range (s.length + 1)).find? (fun i => sub.isPrefixOf (s.drop i)) with
  | none => rw [hfind] at hsome; simp at hsome
  | some i =>
    simp only
    omega

/-! ### The program's data and operations -/

/-- `appFiles`: the program's own artifact files, excluded from syncing. -/
def appFiles : List (List Char) :=
  ["config.json".toList, "client_secret.json".toList,
   "EncryptBckDocs.go".toList, "EncryptBckDocs".toList]

/-- `isNotAppFile`: for each artifact name, compare `strings.LastIndex`
with the length difference; any hit classifies the path as an app file. -/
def isNotAppFile (fileName : List Char) : Bool :=
  !(appFiles.any (fun name =>
    (fileName.length : Int) - (name.length : Int) == goLastIndex fileName name))

/-- `isNotHiddenFile`: true when the path contains a `/.` segment
(despite the name, `true` means the path IS hidden). -/
def isNotHiddenFile (fileName : List Char) : Bool :=
  goIndex fileName ("/.".toList) != -1

/-- The two error values `findHolderFolder` can produce. -/
inductive FindFolderError where
  | noFolders
  | noFolderWithName (name : List Char)
deriving DecidableEq, Repr

/-- `findHolderFolder`: scan the non-trashed folder listing, remembering
the last folder whose name matches (the `break` is commented out in the
source, so a later match overwrites an earlier one). -/
def findHolderFolder (listing : List DriveFile) (folderName : List Char) :
    Except FindFolderError DriveFile :=
  if 0 < listing.length then
    match listing.foldl (fun acc f => if f.name = folderName then some f else acc) none with
    | some folder => Except.ok folder
    | none => Except.error (FindFolderError.noFolderWithName folderName)
  else Except.error FindFolderError.noFolders

/-- The Drive query issued by `findUploadFileInDrive`:
`'parentID' in parents and explicitlyTrashed=false and name='fileName'`. -/
def driveFileQuery (store : List DriveFile) (parentID fileName : List Char) :
    List DriveFile :=
  store.filter (fun f => f.parents.contains parentID && !f.trashed && f.name == fileName)

/-- `findUploadFileInDrive`: run the query and keep the first listed
match, if any (`r.Files[0]`). -/
def findUploadFileInDrive (store : List DriveFile) (fileName parentID : List Char) :
    Option DriveFile :=
  (driveFileQuery store parentID fileName).head?

/-- The remote calls the reconciliation path can issue. -/
inductive DriveCall where
  | createFile (parentId fileName : List Char)
  | updateFile (fileId newName : List Char)
  | createFolder (name mimeType : List Char)
deriving DecidableEq, Repr

def DriveCall.isCreateFile : DriveCall → Bool
  | .createFile _ _ => true
  | _ => false

def DriveCall.isUpdateFile : DriveCall → Bool
  | .updateFile _ _ => true
  | _ => false

/-- The metadata `updateFileInDrive` submits: the existing file's id, a
name equal to `filepath.Base` of the existing remote name, and the local
file's bytes as media. -/
structure UpdateCallRecord where
  fileId : List Char
  name : List Char
  media : List Char
deriving DecidableEq, Repr

def updateFileInDrive (driveFileToUpload : DriveFile) (goFile : List Char) :
    UpdateCallRecord :=
  { fileId := driveFileToUpload.id
    name := filepathBase driveFileToUpload.name
    media := goFile }

/-- `processUpload`: query for an existing remote file with the upload
name under the parent folder; update the first match when found,
otherwise create (`uploadNewFileToDrive` names the new file
`filepath.Base(fileToUploadName)` and parents it under the folder). -/
def processUpload (store : List DriveFile) (uploadFilePath uploadFileName : List Char)
    (parentFolder : DriveFile) : List DriveCall :=
  match findUploadFileInDrive store uploadFileName parentFolder.id with
  | some f => [DriveCall.updateFile f.id (filepathBase f.name)]
  | none => [DriveCall.createFile parentFolder.id (filepathBase uploadFileName)]

/-- Remote store semantics of the Drive calls (the Remote Store Client
contract of the design: create appends a fresh non-trashed record, update
rewrites the name of the record with the given id). -/
def applyDriveCall (store : List DriveFile) (freshId : List Char) :
    DriveCall → List DriveFile
  | .createFile parentId fileName =>
      store ++ [{ id := freshId, name := fileName, parents := [parentId] }]
  | .updateFile fileId newName =>
      store.map (fun f => if f.id = fileId then { f with name := newName } else f)
  | .createFolder name mime =>
      store ++ [{ id := freshId, name := name,
                  mimeType := mime }]

/-- One reconciliation run: the calls `processUpload` issues and the
store they leave behind. -/
def reconcile (store : List DriveFile) (uploadFilePath uploadFileName : List Char)
    (parentFolder : DriveFile) (freshId : List Char) :
    List DriveFile × List DriveCall :=
  let calls := processUpload store uploadFilePath uploadFileName parentFolder
  (calls.foldl (fun s c => applyDriveCall s freshId c) store, calls)

/-- The folder-resolution step of `executeApp`: use the listing match when
`findHolderFolder` succeeds, otherwise issue a single
`createFolderInDrive` call (folder mime type) and proceed with its
result. -/
def resolveDestinationFolder (listing : List DriveFile) (folderName : List Char)
    (createdFolder : DriveFile) : DriveFile × List DriveCall :=
  match findHolderFolder listing folderName with
  | Except.ok f => (f, [])
  | Except.error _ =>
      (createdFolder,
       [DriveCall.createFolder folderName ("application/vnd.google-apps.folder".toList)])

/-- A directory entry as seen by the sweep (`ioutil.ReadDir` result). -/
structure DirEntry where
  name : List Char
  isDir : Bool
deriving DecidableEq, Repr

/-- The per-directory sweep `uploadActualFilesInWatchDir`: for each
non-directory entry build `folder + "/" + name` and, when it passes the
app-file and hidden-file filters, invoke `processUpload` with that pair.
The result lists the `(uploadFilePath, uploadFileName)` arguments of the
invocations, in order. -/
def uploadActualFilesInWatchDir (watchDir : List Char) (entries : List DirEntry) :
    List (List Char × List Char) :=
  entries.filterMap (fun e =>
    if !e.isDir then
      let totalName := watchDir ++ "/".toList ++ e.name
      if isNotAppFile totalName && !(isNotHiddenFile totalName) then
        some (totalName, e.name)
      else none
    else none)

/-- Outcome of the watch-loop handler on one write event. -/
inductive WatchAction where
  | skipped
  | panicked
  | upload (path onlyFileName : List Char)
deriving DecidableEq, Repr

/-- The `runWatcher` write-event handler: filter, then split the event
path at the last path separator with Go slice expressions
(`event.Name[0:lastPos]` and `event.Name[lastPos+1:len]`) and invoke
`processUpload`; an out-of-range slice is a run-time panic. -/
def runWatcherHandleWrite (eventName : List Char) : WatchAction :=
  if isNotAppFile eventName && !(isNotHiddenFile eventName) then
    match goSlice eventName 0 (goLastIndex eventName ("/".toList)),
          goSlice eventName (goLastIndex eventName ("/".toList) + 1) (eventName.length : Int) with
    | some _, some onlyFileName => WatchAction.upload eventName onlyFileName
    | _, _ => WatchAction.panicked
  else WatchAction.skipped

/-! ### Configuration -/

/-- `appConfig`: destination folder name, last update timestamp and the
watched paths (JSON tags `folderName`, `lastUpdate`, `folderToWatch`). -/
structure appConfig where
  FolderName : String
  LastUpdate : String
  FolderToWatch : List String
deriving DecidableEq, Repr

/-- What `addFolderToWatch` did: the resulting config, whether
`saveConfigJSONFile` ran, whether an error was logged, and whether the
process aborted (`log.Fatal`/`panic`; this function only ever calls
`log.Println`, so it never aborts). -/
structure AddFolderOutcome where
  config : appConfig
  savedConfig : Bool
  loggedError : Bool
  aborted : Bool
deriving DecidableEq, Repr

/-- `addFolderToWatch`, after the interactive read and `filepath.Abs`
normalization produced `folderToWatch`: refuse when unconfigured, log an
error and change nothing on a duplicate, otherwise append and save. -/
def addFolderToWatch (config : appConfig) (folderToWatch : String) : AddFolderOutcome :=
  if config.FolderToWatch.length = 0 then
    { config := config, savedConfig := false, loggedError := true, aborted := false }
  else
    let isFolderInConfig :=
      config.FolderToWatch.foldl
        (fun acc actual => if actual = folderToWatch then true else acc) false
    if isFolderInConfig then
      { config := config, savedConfig := false, loggedError := true, aborted := false }
    else
      { config := { config with FolderToWatch := config.FolderToWatch ++ [folderToWatch] }
        savedConfig := true, loggedError := false, aborted := false }

/-! ### JSON round trip -/

/-- A JSON value, as produced and consumed by `encoding/json`. -/
inductive Json where
  | str (s : String)
  | num (n : Int)
  | jbool (b : Bool)
  | null
  | arr (elems : List Json)
  | obj (fields : List (String × Json))

/-- `json.Marshal(configApp)` as performed by `saveConfigJSONFile`: an
object with the three tagged fields, string list encoded as an array. -/
def marshalAppConfig (c : appConfig) : Json :=
  Json.obj
    [("folderName", Json.str c.FolderName),
     ("lastUpdate", Json.str c.LastUpdate),
     ("folderToWatch", Json.arr (c.FolderToWatch.map Json.str))]

/-- Key lookup as `json.Decode` performs it: fields are processed in
order and a later duplicate key overwrites an earlier one. -/
def jsonLookupLast (fields : List (String × Json)) (key : String) : Option Json :=
  fields.foldl (fun acc kv => if kv.1 = key then some kv.2 else acc) none

/-- Decode a JSON value into a Go `string` field: a missing key or `null`
leaves the zero value, a non-string is a type error. -/
def decodeStringInto : Option Json → Option String
  | none => some ("")
  | some (Json.str s) => some s
  | some Json.null => some ("")
  | some _ => none

/-- Decode a JSON value into a Go `[]string` field. -/
def decodeStringList : Option Json → Option (List String)
  | none => some []
  | some Json.null => some []
  | some (Json.arr xs) =>
      xs.mapM (fun j => match j with | Json.str s => some s | _ => none)
  | some _ => none

/-- `loadConfig`'s decode step: `jsonParser.Decode(&config)` matching JSON
keys against the struct tags. -/
def unmarshalAppConfig : Json → Option appConfig
  | Json.obj fields => do
      let fn ← decodeStringInto (jsonLookupLast fields ("folderName"))
      let lu ← decodeStringInto (jsonLookupLast fields ("lastUpdate"))
      let fw ← decodeStringList (jsonLookupLast fields ("folderToWatch"))
      some { FolderName := fn, LastUpdate := lu, FolderToWatch := fw }
  | _ => none

/-! ### Generic helper lemmas -/

theorem foldl_lastMatch_nomatch (n : List Char) (l : List DriveFile)
    (acc : Option DriveFile) (h : ∀ g ∈ l, g.name ≠ n) :
    l.foldl (fun acc f => if f.name = n then some f else acc) acc = acc := by
  induction l generalizing acc with
  | nil => rfl
  | cons a l ih =>
    simp only [List.foldl_cons]
    rw [if_neg (h a (by simp))]
    exact ih acc (fun g hg => h g (by simp [hg]))

theorem foldl_or_true (x : String) (l : List String) :
    l.foldl (fun acc a => if a = x then true else acc) true = true := by
  induction l with
  | nil => rfl
  | cons a l ih =>
    simp only [List.foldl_cons]
    by_cases h : a = x
    · rw [if_pos h]; exact ih
    · rw [if_neg h]; exact ih

theorem foldl_or_mem (x : String) (l : List String) (hx : x ∈ l) (acc : Bool) :
    l.foldl (fun acc a => if a = x then true else acc) acc = true := by
  induction l generalizing acc with
  | nil => cases hx
  | cons a l ih =>
    simp only [List.foldl_cons]
    rcases List.mem_cons.mp hx with h | h
    · subst h
      rw [if_pos rfl]
      exact foldl_or_true x l
    · exact ih h _

theorem map_noop {α : Type} (l : List α) (f : α → α) (h : ∀ a ∈ l, f a = a) :
    l.map f = l := by
  induction l with
  | nil => rfl
  | cons a t ih =>
    rw [List.map_cons, h a (by simp), ih (fun b hb => h b (by simp [hb]))]

/-- `filepath.Base` is the identity on a nonempty name without a path
separator. -/
theorem filepathBase_no_separator (p : List Char) (hne : p ≠ []) (hnosep : '/' ∉ p) :
    filepathBase p = p := by
  have hvals : ∀ c ∈ p.reverse, (c == '/') = false := by
    intro c hc
    simp only [List.mem_reverse] at hc
    simp only [beq_eq_false_iff_ne, ne_eq]
    intro hcharEq
    subst hcharEq
    exact hnosep hc
  have hdrop : p.reverse.dropWhile (fun c => c == '/') = p.reverse := by
    cases hp : p.reverse with
    | nil => rfl
    | cons a l =>
      rw [List.dropWhile_cons, hvals a (by rw [hp]; simp)]
      simp
  have htake : p.reverse.takeWhile (fun c => !(c == '/')) = p.reverse := by
    rw [List.takeWhile_eq_self_iff]
    intro c hc
    simp [hvals c hc]
  have hem : p.isEmpty = false := by
    simpa [List.isEmpty_iff] using hne
  simp only [filepathBase, hem, Bool.false_eq_true, if_false, hdrop, List.reverse_reverse,
    htake]

/-! ### C3: last matching folder wins -/

/-- C3.  When the non-trashed folder listing contains at least one folder
with the requested name, `findHolderFolder` returns the last matching
folder in listing order (and no error): the listing decomposes as
`l1 ++ f :: l2` with `f` matching and no match in `l2`, and the result is
`Except.ok f`. -/
theorem findHolderFolder_last_match (l1 l2 : List DriveFile) (f : DriveFile)
    (folderName : List Char) (hf : f.name = folderName)
    (h2 : ∀ g ∈ l2, g.name ≠ folderName) :
    findHolderFolder (l1 ++ f :: l2) folderName = Except.ok f := by
  unfold findHolderFolder
  have hlen : 0 < (l1 ++ f :: l2).length := by simp
  rw [if_pos hlen]
  have hfold : (l1 ++ f :: l2).foldl
      (fun acc g => if g.name = folderName then some g else acc) none = some f := by
    rw [List.foldl_append, List.foldl_cons, if_pos hf]
    exact foldl_lastMatch_nomatch folderName l2 (some f) h2
  rw [hfold]

/-- Witness for C3 at a concrete three-folder listing with two folders
named `Docs`: the second (last) one is returned. -/
theorem findHolderFolder_last_match_witness :
    findHolderFolder
      [⟨("id1".toList), ("Docs".toList), [], [], false⟩,
       ⟨("id2".toList), ("Docs".toList), [], [], false⟩,
       ⟨("id3".toList), ("Other".toList), [], [], false⟩] ("Docs".toList) =
      Except.ok ⟨("id2".toList), ("Docs".toList), [], [], false⟩ :=
  findHolderFolder_last_match
    [⟨("id1".toList), ("Docs".toList), [], [], false⟩]
    [⟨("id3".toList), ("Other".toList), [], [], false⟩]
    ⟨("id2".toList), ("Docs".toList), [], [], false⟩
    ("Docs".toList) rfl (by decide)

/-! ### C4: folder auto-creation -/

/-- C4.  When no listed folder has the destination name, the execute
action's folder resolution issues exactly one create-folder call with
that name (and the folder mime type) and proceeds with the created folder
as its result. -/
theorem resolveDestinationFolder_creates (listing : List DriveFile)
    (folderName : List Char) (createdFolder : DriveFile)
    (h : ∀ g ∈ listing, g.name ≠ folderName) :
    resolveDestinationFolder listing folderName createdFolder =
      (createdFolder,
       [DriveCall.createFolder folderName ("application/vnd.google-apps.folder".toList)]) := by
  unfold resolveDestinationFolder findHolderFolder
  cases listing with
  | nil => rfl
  | cons a l =>
    have hlen : 0 < (a :: l).length := by simp
    rw [if_pos hlen, foldl_lastMatch_nomatch folderName (a :: l) none h]

/-- Witness for C4: a listing holding one differently-named folder. -/
theorem resolveDestinationFolder_creates_witness :
    resolveDestinationFolder
      [⟨("id9".toList), ("Other".toList), [], [], false⟩] ("EncryptBckDoc".toList)
      ⟨("idNew".toList), ("EncryptBckDoc".toList), [], [], false⟩ =
      (⟨("idNew".toList), ("EncryptBckDoc".toList), [], [], false⟩,
       [DriveCall.createFolder ("EncryptBckDoc".toList)
         ("application/vnd.google-apps.folder".toList)]) :=
  resolveDestinationFolder_creates
    [⟨("id9".toList), ("Other".toList), [], [], false⟩] ("EncryptBckDoc".toList)
    ⟨("idNew".toList), ("EncryptBckDoc".toList), [], [], false⟩ (by decide)

/-! ### C1: create-vs-update branch correctness -/

/-- C1.  One reconciliation run issues exactly one create call and no
update call when the remote query under the destination folder finds no
file with the upload name, and exactly one update call — against the
first listed match — and no create call when it finds at least one. -/
theorem processUpload_create_vs_update (store : List DriveFile)
    (uploadFilePath uploadFileName : List Char) (parentFolder : DriveFile) :
    (driveFileQuery store parentFolder.id uploadFileName = [] →
      processUpload store uploadFilePath uploadFileName parentFolder =
        [DriveCall.createFile parentFolder.id (filepathBase uploadFileName)] ∧
      (processUpload store uploadFilePath uploadFileName parentFolder).countP
        DriveCall.isCreateFile = 1 ∧
      (processUpload store uploadFilePath uploadFileName parentFolder).countP
        DriveCall.isUpdateFile = 0) ∧
    (∀ f fs, driveFileQuery store parentFolder.id uploadFileName = f :: fs →
      processUpload store uploadFilePath uploadFileName parentFolder =
        [DriveCall.updateFile f.id (filepathBase f.name)] ∧
      (processUpload store uploadFilePath uploadFileName parentFolder).countP
        DriveCall.isUpdateFile = 1 ∧
      (processUpload store uploadFilePath uploadFileName parentFolder).countP
        DriveCall.isCreateFile = 0) := by
  constructor
  · intro hq
    have hcall : processUpload store uploadFilePath uploadFileName parentFolder =
        [DriveCall.createFile parentFolder.id (filepathBase uploadFileName)] := by
      unfold processUpload findUploadFileInDrive
      rw [hq]
      rfl
    refine ⟨hcall, ?_, ?_⟩ <;>
      simp [hcall, List.countP_cons, DriveCall.isCreateFile, DriveCall.isUpdateFile]
  · intro f fs hq
    have hcall : processUpload store uploadFilePath uploadFileName parentFolder =
        [DriveCall.updateFile f.id (filepathBase f.name)] := by
      unfold processUpload findUploadFileInDrive
      rw [hq]
      rfl
    refine ⟨hcall, ?_, ?_⟩ <;>
      simp [hcall, List.countP_cons, DriveCall.isCreateFile, DriveCall.isUpdateFile]

/-- Witness for C1, both branches: an empty store yields a create call
only; a store already holding the file yields an update call only. -/
theorem processUpload_create_vs_update_witness :
    (processUpload [] ("/w/a.txt".toList) ("a.txt".toList)
        ⟨("fid".toList), ("EncryptBckDoc".toList), [], [], false⟩ =
      [DriveCall.createFile ("fid".toList) (filepathBase ("a.txt".toList))] ∧
      (processUpload [] ("/w/a.txt".toList) ("a.txt".toList)
        ⟨("fid".toList), ("EncryptBckDoc".toList), [], [], false⟩).countP
        DriveCall.isCreateFile = 1 ∧
      (processUpload [] ("/w/a.txt".toList) ("a.txt".toList)
        ⟨("fid".toList), ("EncryptBckDoc".toList), [], [], false⟩).countP
        DriveCall.isUpdateFile = 0) ∧
    (processUpload [⟨("x1".toList), ("a.txt".toList), [], [("fid".toList)], false⟩]
        ("/w/a.txt".toList) ("a.txt".toList)
        ⟨("fid".toList), ("EncryptBckDoc".toList), [], [], false⟩ =
      [DriveCall.updateFile ("x1".toList)
        (filepathBase ("a.txt".toList))] ∧
      (processUpload [⟨("x1".toList), ("a.txt".toList), [], [("fid".toList)], false⟩]
        ("/w/a.txt".toList) ("a.txt".toList)
        ⟨("fid".toList), ("EncryptBckDoc".toList), [], [], false⟩).countP
        DriveCall.isUpdateFile = 1 ∧
      (processUpload [⟨("x1".toList), ("a.txt".toList), [], [("fid".toList)], false⟩]
        ("/w/a.txt".toList) ("a.txt".toList)
        ⟨("fid".toList), ("EncryptBckDoc".toList), [], [], false⟩).countP
        DriveCall.isCreateFile = 0) :=
  ⟨(processUpload_create_vs_update [] ("/w/a.txt".toList) ("a.txt".toList)
      ⟨("fid".toList), ("EncryptBckDoc".toList), [], [], false⟩).1 (by decide),
   (processUpload_create_vs_update
      [⟨("x1".toList), ("a.txt".toList), [], [("fid".toList)], false⟩]
      ("/w/a.txt".toList) ("a.txt".toList)
      ⟨("fid".toList), ("EncryptBckDoc".toList), [], [], false⟩).2
      ⟨("x1".toList), ("a.txt".toList), [], [("fid".toList)], false⟩ [] (by decide)⟩

/-! ### C6: duplicate watch path rejected -/

/-- C6.  Adding a path already present in the watched list leaves the
configuration unchanged, skips the config save, logs an error and does
not abort the process. -/
theorem addFolderToWatch_duplicate (config : appConfig) (folderToWatch : String)
    (h : folderToWatch ∈ config.FolderToWatch) :
    addFolderToWatch config folderToWatch =
      { config := config, savedConfig := false, loggedError := true, aborted := false } := by
  unfold addFolderToWatch
  have hne : ¬ config.FolderToWatch.length = 0 := by
    cases hl : config.FolderToWatch with
    | nil => rw [hl] at h; cases h
    | cons a l => simp
  rw [if_neg hne]
  simp only [foldl_or_mem folderToWatch config.FolderToWatch h false, if_pos]

/-- Witness for C6 at a concrete configuration with one watched path. -/
theorem addFolderToWatch_duplicate_witness :
    addFolderToWatch ⟨("EncryptBckDoc"), ("2020"), [("/home/u/docs")]⟩ ("/home/u/docs") =
      { config := ⟨("EncryptBckDoc"), ("2020"), [("/home/u/docs")]⟩,
        savedConfig := false, loggedError := true, aborted := false } :=
  addFolderToWatch_duplicate ⟨("EncryptBckDoc"), ("2020"), [("/home/u/docs")]⟩
    ("/home/u/docs") (by simp)

/-! ### C7: update preserves the remote name -/

/-- C7.  The name submitted by `updateFileInDrive` equals
`filepath.Base` of the existing remote file's name — for the plain names
this program creates (nonempty, no separator) that is exactly the
existing name — and it does not depend on the local file content
argument: updating replaces content, never the remote name. -/
theorem updateFileInDrive_preserves_name (f : DriveFile) (c1 c2 : List Char)
    (hne : f.name ≠ []) (hnosep : '/' ∉ f.name) :
    (updateFileInDrive f c1).name = filepathBase f.name ∧
    (updateFileInDrive f c1).name = f.name ∧
    (updateFileInDrive f c1).name = (updateFileInDrive f c2).name := by
  refine ⟨rfl, ?_, rfl⟩
  show filepathBase f.name = f.name
  exact filepathBase_no_separator f.name hne hnosep

/-- Witness for C7 at a concrete remote file and two different local
contents. -/
theorem updateFileInDrive_preserves_name_witness :
    (updateFileInDrive ⟨("x1".toList), ("a.txt".toList), [], [("fid".toList)], false⟩
        ("old bytes".toList)).name =
      filepathBase ("a.txt".toList) ∧
    (updateFileInDrive ⟨("x1".toList), ("a.txt".toList), [], [("fid".toList)], false⟩
        ("old bytes".toList)).name = ("a.txt".toList) ∧
    (updateFileInDrive ⟨("x1".toList), ("a.txt".toList), [], [("fid".toList)], false⟩
        ("old bytes".toList)).name =
      (updateFileInDrive ⟨("x1".toList), ("a.txt".toList), [], [("fid".toList)], false⟩
        ("new bytes".toList)).name :=
  updateFileInDrive_preserves_name
    ⟨("x1".toList), ("a.txt".toList), [], [("fid".toList)], false⟩
    ("old bytes".toList) ("new bytes".toList) (by decide) (by decide)

/-! ### C8: configuration round trip -/

theorem mapM_map_str (xs : List String) :
    (xs.map Json.str).mapM
      (fun j => match j with | Json.str s => some s | _ => none) = some xs := by
  induction xs with
  | nil => rfl
  | cons a l ih =>
    rw [List.map_cons, List.mapM_cons, ih]
    rfl

/-- C8.  Serializing an `appConfig` with the save operation's
`json.Marshal` and decoding the result as `loadConfig` does reproduces
the folder name, last-update timestamp and watched-path list exactly. -/
theorem appConfig_json_roundtrip (c : appConfig) :
    unmarshalAppConfig (marshalAppConfig c) = some c := by
  have h1 : ¬ (("lastUpdate" : String) = ("folderName" : String)) := by decide
  have h2 : ¬ (("folderToWatch" : String) = ("folderName" : String)) := by decide
  have h3 : ¬ (("folderToWatch" : String) = ("lastUpdate" : String)) := by decide
  have h4 : ¬ (("folderName" : String) = ("lastUpdate" : String)) := by decide
  have h5 : ¬ (("folderName" : String) = ("folderToWatch" : String)) := by decide
  have h6 : ¬ (("lastUpdate" : String) = ("folderToWatch" : String)) := by decide
  simp only [marshalAppConfig, unmarshalAppConfig, jsonLookupLast, List.foldl_cons,
    List.foldl_nil, if_pos rfl, if_neg h1, if_neg h2, if_neg h3, if_neg h4, if_neg h5,
    if_neg h6]
  simp only [if_true, decodeStringInto, decodeStringList, mapM_map_str,
    Option.bind_eq_bind, Option.some_bind]

/-! ### Filter lemmas for C5, C9, C10 -/

theorem appFiles_ne_nil : ∀ n ∈ appFiles, n ≠ [] := by decide

/-- A path that ends in one of the app artifact names is classified as an
app file. -/
theorem isNotAppFile_eq_false_of_suffix (p n t : List Char) (hmem : n ∈ appFiles)
    (hp : p = t ++ n) : isNotAppFile p = false := by
  have hnnil : n ≠ [] := appFiles_ne_nil n hmem
  subst hp
  unfold isNotAppFile
  rw [Bool.not_eq_false', List.any_eq_true]
  refine ⟨n, hmem, ?_⟩
  rw [goLastIndex_suffix t n hnnil]
  simp only [beq_iff_eq, List.length_append]
  push_cast
  ring

/-- A path containing a `/.` segment is classified as hidden. -/
theorem isNotHiddenFile_eq_true_of_contains (p t u : List Char)
    (hp : p = t ++ ("/.".toList) ++ u) : isNotHiddenFile p = true := by
  unfold isNotHiddenFile
  have h := goIndex_ne_neg_one p ("/.".toList) ⟨t, u, hp⟩
  simpa [bne_iff_ne] using h

/-- The shared upload guard of the sweep and the watch loop rejects
artifact-suffixed and hidden paths. -/
theorem upload_guard_false (p : List Char)
    (h : (∃ n ∈ appFiles, ∃ t, p = t ++ n) ∨ ∃ t u, p = t ++ ("/.".toList) ++ u) :
    (isNotAppFile p && !(isNotHiddenFile p)) = false := by
  rcases h with ⟨n, hmem, t, hp⟩ | ⟨t, u, hp⟩
  · rw [isNotAppFile_eq_false_of_suffix p n t hmem hp]
    rfl
  · rw [isNotHiddenFile_eq_true_of_contains p t u hp]
    simp

/-! ### C5: filter exclusion -/

/-- C5.  A path that matches an app artifact name by suffix or contains
a `/.` segment is never passed to `processUpload`, neither by the
directory sweep (it appears in no invocation pair) nor by the watch-loop
write handler (the event is skipped). -/
theorem filters_exclude_reconcile (p : List Char)
    (h : (∃ n ∈ appFiles, ∃ t, p = t ++ n) ∨ ∃ t u, p = t ++ ("/.".toList) ++ u) :
    (∀ (watchDir : List Char) (entries : List DirEntry),
      ∀ q ∈ uploadActualFilesInWatchDir watchDir entries, q.1 ≠ p) ∧
    runWatcherHandleWrite p = WatchAction.skipped := by
  have hguard := upload_guard_false p h
  constructor
  · intro watchDir entries q hq hqp
    unfold uploadActualFilesInWatchDir at hq
    rw [List.mem_filterMap] at hq
    obtain ⟨e, _, hsome⟩ := hq
    by_cases hd : e.isDir
    · simp [hd] at hsome
    · simp only [Bool.not_eq_true] at hd
      simp only [hd, Bool.not_false, if_true] at hsome
      by_cases hg : (isNotAppFile (watchDir ++ ("/".toList) ++ e.name) &&
          !(isNotHiddenFile (watchDir ++ ("/".toList) ++ e.name))) = true
      · rw [if_pos hg] at hsome
        have hpair := Option.some.inj hsome
        have hfst : watchDir ++ ("/".toList) ++ e.name = p := by
          rw [← hqp, ← hpair]
        rw [hfst, hguard] at hg
        cases hg
      · rw [if_neg hg] at hsome
        cases hsome
  · unfold runWatcherHandleWrite
    rw [hguard]
    rfl

/-- Witness for C5 on the artifact path `/w/config.json` (suffix match on
the reserved name `config.json`). -/
theorem filters_exclude_reconcile_witness :
    (∀ (watchDir : List Char) (entries : List DirEntry),
      ∀ q ∈ uploadActualFilesInWatchDir watchDir entries, q.1 ≠ ("/w/config.json".toList)) ∧
    runWatcherHandleWrite ("/w/config.json".toList) = WatchAction.skipped :=
  filters_exclude_reconcile ("/w/config.json".toList)
    (Or.inl ⟨("config.json".toList), by decide, ("/w/".toList), by decide⟩)

/-! ### C9: off-by-one in the app-file filter -/

/-- C9.  A file name one character shorter than an artifact name — which
therefore cannot contain it — is nevertheless classified as an app file:
`strings.LastIndex` yields `-1` and `len(s) - len(n) = -1` as well, so
`isNotAppFile` returns `false` and the file is silently excluded. -/
theorem isNotAppFile_short_name (s n : List Char) (hmem : n ∈ appFiles)
    (hlen : s.length + 1 = n.length) (hnot : ¬ ∃ t u, s = t ++ n ++ u) :
    isNotAppFile s = false := by
  unfold isNotAppFile
  rw [Bool.not_eq_false', List.any_eq_true]
  refine ⟨n, hmem, ?_⟩
  rw [goLastIndex_eq_neg_one s n hnot]
  simp only [beq_iff_eq]
  omega

/-- Witness for C9: the ten-character name `aaaaaaaaaa` (one shorter than
`config.json`) is classified as an app file. -/
theorem isNotAppFile_short_name_witness :
    isNotAppFile (['a', 'a', 'a', 'a', 'a', 'a', 'a', 'a', 'a', 'a']) = false :=
  isNotAppFile_short_name (['a', 'a', 'a', 'a', 'a', 'a', 'a', 'a', 'a', 'a'])
    ("config.json".toList) (by decide) (by decide)
    (by
      rintro ⟨t, u, h⟩
      have hlen := congrArg List.length h
      have h11 : ("config.json".toList).length = 11 := rfl
      simp only [List.length_append, h11] at hlen
      simp at hlen
      omega)

/-! ### C10: separator-free event paths panic the watch handler -/

/-- When `s` contains `'/'`, `strings.LastIndex s "/"` is a valid index:
some `r` with `r + 1 ≤ s.length`. -/
theorem goLastIndex_sep_bounds (s : List Char) (h : '/' ∈ s) :
    ∃ r : Nat, goLastIndex s ("/".toList) = (r : Int) ∧ r + 1 ≤ s.length := by
  obtain ⟨l1, l2, hs⟩ := List.append_of_mem h
  have hp : ("/".toList).isPrefixOf (s.drop l1.length) = true := by
    rw [hs]
    have hdrop : ((l1 ++ '/' :: l2).drop l1.length) = '/' :: l2 := by
      simp
    rw [hdrop, isPrefixOf_iff_exists]
    exact ⟨l2, rfl⟩
  have hle : l1.length ≤ s.length := by
    rw [hs]
    simp
  obtain ⟨r, hr, _⟩ := lastIndexAuxN_complete s ("/".toList) s.length l1.length hle hp
  obtain ⟨hrle, hrp⟩ := lastIndexAuxN_some s ("/".toList) s.length r hr
  rw [isPrefixOf_iff_exists] at hrp
  obtain ⟨u, hu⟩ := hrp
  have hdl : (s.drop r).length = s.length - r := by simp
  rw [hu] at hdl
  simp only [List.length_append] at hdl
  refine ⟨r, ?_, ?_⟩
  · unfold goLastIndex
    rw [hr]
  · have : ("/".toList).length = 1 := rfl
    omega

/-- C10.  The watch-loop write handler slices the event path at the last
path separator without a bounds check: a separator-free path that passes
the file filters reaches the slice `event.Name[0:lastPos]` with
`lastPos = -1` and panics, while every path containing a separator is
handled without a panic — the handler is total exactly under the
precondition that event paths contain a separator. -/
theorem runWatcher_panics_iff_no_separator :
    (∀ p : List Char, '/' ∉ p →
      (isNotAppFile p && !(isNotHiddenFile p)) = true →
      runWatcherHandleWrite p = WatchAction.panicked) ∧
    (∀ q : List Char, '/' ∈ q → runWatcherHandleWrite q ≠ WatchAction.panicked) := by
  constructor
  · intro p hnosep hpass
    have hneg : goLastIndex p ("/".toList) = -1 := by
      apply goLastIndex_eq_neg_one
      rintro ⟨t, u, hp⟩
      apply hnosep
      rw [hp]
      simp
    unfold runWatcherHandleWrite
    rw [hpass, if_pos rfl, hneg]
    have hslice : goSlice p 0 (-1) = none := by
      unfold goSlice
      rw [if_neg]
      rintro ⟨_, hcontr, _⟩
      omega
    rw [hslice]
  · intro q hsep
    by_cases hg : (isNotAppFile q && !(isNotHiddenFile q)) = true
    · obtain ⟨r, hr, hrb⟩ := goLastIndex_sep_bounds q hsep
      have hs1 : goSlice q 0 (goLastIndex q ("/".toList)) =
          some ((q.take r).drop 0) := by
        unfold goSlice
        rw [hr, if_pos]
        · simp
        · refine ⟨le_refl 0, ?_, ?_⟩ <;> omega
      have hs2 : goSlice q (goLastIndex q ("/".toList) + 1) (q.length : Int) =
          some ((q.take q.length).drop (r + 1)) := by
        unfold goSlice
        rw [hr, if_pos]
        · have e1 : ((q.length : Int)).toNat = q.length := Int.toNat_natCast q.length
          have e2 : (((r : Int)) + 1).toNat = r + 1 := by omega
          rw [e1, e2]
        · refine ⟨?_, ?_, le_refl _⟩ <;> omega
      unfold runWatcherHandleWrite
      rw [hg, if_pos rfl, hs1, hs2]
      simp
    · unfold runWatcherHandleWrite
      rw [if_neg hg]
      simp

/-- Witness for C10: the separator-free name `notes.txt` passes both
filters and panics the handler; the path `/w/notes.txt` does not panic. -/
theorem runWatcher_panics_iff_no_separator_witness :
    runWatcherHandleWrite ("notes.txt".toList) = WatchAction.panicked ∧
    runWatcherHandleWrite ("/w/notes.txt".toList) ≠ WatchAction.panicked :=
  ⟨runWatcher_panics_iff_no_separator.1 ("notes.txt".toList) (by decide) (by decide),
   runWatcher_panics_iff_no_separator.2 ("/w/notes.txt".toList) (by decide)⟩

/-! ### C2: idempotence of reconciliation -/

/-- C2.  Starting from a store with no file of the upload name under the
destination folder, running `processUpload` twice for the same unchanged
local file leaves exactly one non-trashed remote file under that
`(parentId, name)` pair, the first run creating it and the second taking
the update branch (never create).  The upload name is a base name as both
callers produce it: nonempty and separator-free. -/
theorem reconcile_idempotent (store : List DriveFile)
    (path name freshId : List Char) (folder : DriveFile)
    (hempty : driveFileQuery store folder.id name = [])
    (hname : name ≠ []) (hnosep : '/' ∉ name)
    (hfresh : ∀ f ∈ store, f.id ≠ freshId) :
    (reconcile store path name folder freshId).2 =
      [DriveCall.createFile folder.id name] ∧
    (reconcile (reconcile store path name folder freshId).1 path name folder freshId).2 =
      [DriveCall.updateFile freshId name] ∧
    (driveFileQuery
      (reconcile (reconcile store path name folder freshId).1 path name folder freshId).1
      folder.id name).length = 1 := by
  have hbase : filepathBase name = name := filepathBase_no_separator name hname hnosep
  set newF : DriveFile := ⟨freshId, name, [], [folder.id], false⟩ with hnewF
  have hcall1 : processUpload store path name folder =
      [DriveCall.createFile folder.id name] := by
    unfold processUpload findUploadFileInDrive
    rw [hempty]
    simp [hbase]
  have hs1 : (reconcile store path name folder freshId).1 = store ++ [newF] := by
    simp [reconcile, hcall1, applyDriveCall, hnewF]
  have hr1 : (reconcile store path name folder freshId).2 =
      [DriveCall.createFile folder.id name] := by
    simp [reconcile, hcall1]
  have hq1 : driveFileQuery (store ++ [newF]) folder.id name = [newF] := by
    unfold driveFileQuery at hempty ⊢
    rw [List.filter_append, hempty, List.nil_append]
    simp [hnewF]
  have hcall2 : processUpload (store ++ [newF]) path name folder =
      [DriveCall.updateFile freshId name] := by
    unfold processUpload findUploadFileInDrive
    rw [hq1]
    simp [hnewF, hbase]
  have hmap : (store ++ [newF]).map
      (fun f => if f.id = freshId then { f with name := name } else f) =
      store ++ [newF] := by
    rw [List.map_append]
    have hstore : store.map
        (fun f => if f.id = freshId then { f with name := name } else f) = store :=
      map_noop store _ (fun f hf => if_neg (hfresh f hf))
    rw [hstore]
    simp [hnewF]
  have hs2 : (reconcile (store ++ [newF]) path name folder freshId).1 =
      store ++ [newF] := by
    simp only [reconcile, hcall2, List.foldl_cons, List.foldl_nil, applyDriveCall]
    exact hmap
  have hr2 : (reconcile (store ++ [newF]) path name folder freshId).2 =
      [DriveCall.updateFile freshId name] := by
    simp [reconcile, hcall2]
  refine ⟨hr1, ?_, ?_⟩
  · rw [hs1]
    exact hr2
  · rw [hs1, hs2, hq1]
    rfl

/-- Witness for C2: two runs for `a.txt` against an empty store. -/
theorem reconcile_idempotent_witness :
    (reconcile [] ("/w/a.txt".toList) ("a.txt".toList)
        ⟨("fid".toList), ("EncryptBckDoc".toList), [], [], false⟩ ("x1".toList)).2 =
      [DriveCall.createFile ("fid".toList) ("a.txt".toList)] ∧
    (reconcile
        (reconcile [] ("/w/a.txt".toList) ("a.txt".toList)
          ⟨("fid".toList), ("EncryptBckDoc".toList), [], [], false⟩ ("x1".toList)).1
        ("/w/a.txt".toList) ("a.txt".toList)
        ⟨("fid".toList), ("EncryptBckDoc".toList), [], [], false⟩ ("x1".toList)).2 =
      [DriveCall.updateFile ("x1".toList) ("a.txt".toList)] ∧
    (driveFileQuery
        (reconcile
          (reconcile [] ("/w/a.txt".toList) ("a.txt".toList)
            ⟨("fid".toList), ("EncryptBckDoc".toList), [], [], false⟩ ("x1".toList)).1
          ("/w/a.txt".toList) ("a.txt".toList)
          ⟨("fid".toList), ("EncryptBckDoc".toList), [], [], false⟩ ("x1".toList)).1
        ("fid".toList) ("a.txt".toList)).length = 1 :=
  reconcile_idempotent [] ("/w/a.txt".toList) ("a.txt".toList) ("x1".toList)
    ⟨("fid".toList), ("EncryptBckDoc".toList), [], [], false⟩
    (by decide) (by decide) (by decide) (by decide)

end EncryptBckDocs
